import Mathlib

set_option maxHeartbeats 1000000

/-!
Shallow embedding of the liveness-monitoring engine of `ping.py`:
the per-host debounce state machine (`PingMonitor.update_host_status`,
`update_failure_status`, `update_recovery_status`) with its fixed
transition-history ring, the group-file loader (`read_groups`,
`sort_ip_addresses`), the result aggregator (`ResultProcessor`) and the
cadence of the monitor loop (`monitor_all_groups`).  Timestamps and clock
readings are natural numbers; Python's tri-state host status
`None / True / False` is `Option Bool` (with `some true` = Up,
`some false` = Down, `none` = Unknown).
-/

/-- One ring slot of a host's transition history: the Python dict
`{"down": timestamp-or-None, "up": timestamp-or-None}`. -/
structure Slot where
  down : Option Nat
  up : Option Nat
deriving DecidableEq

/-- Per-host monitor state: the entries keyed by one host in the
`PingMonitor` dictionaries `status_history` (fields `last_status` and
`history`), `current_history_index`, `consecutive_failures` and
`consecutive_successes`.  `update_host_status` reads and writes only the
probed host's entries, so this per-host projection is exact. -/
structure HostState where
  lastStatus : Option Bool
  history : List Slot
  currentIndex : Nat
  consecutiveFailures : Nat
  consecutiveSuccesses : Nat
deriving DecidableEq

/-- Settings dataclass `MonitorSettings` of `ping.py`. -/
structure MonitorSettings where
  interval : Nat
  failure_threshold : Nat
  recovery_threshold : Nat
  batch_size : Nat := 500
deriving DecidableEq

/-- Ring capacity `PingMonitor.history_count`, fixed to `3` in `__init__`. -/
def historyCount : Nat := 3

/-- Empty ring slot `{"down": None, "up": None}`. -/
def emptySlot : Slot := ⟨none, none⟩

/-- Host-state initialization `PingMonitor.initialize_host_status`
(per-host projection). -/
def initialize_host_status : HostState :=
  { lastStatus := none
    history := List.replicate historyCount emptySlot
    currentIndex := 0
    consecutiveFailures := 0
    consecutiveSuccesses := 0 }

/-- A transition recorded in the host's history: `update_failure_status`
records a Down event, `update_recovery_status` an Up event (at the same
call sites the host is added to `changed_hosts`). -/
inductive Event where
  | down (ts : Nat)
  | up (ts : Nat)
deriving DecidableEq

/-- Method `PingMonitor.update_failure_status`: open a slot at the current
ring index and mark the host Down.  The index stays in range of the
3-slot ring (an invariant of all reachable states), where `List.set` and
Python list assignment agree. -/
def update_failure_status (st : HostState) (ts : Nat) : HostState :=
  { st with
    history := st.history.set st.currentIndex ⟨some ts, none⟩
    lastStatus := some false }

/-- Method `PingMonitor.update_recovery_status`: if the slot at the current
index has an open `down`, close it with `up := ts` and advance the index
modulo `historyCount`; in every case mark the host Up. -/
def update_recovery_status (st : HostState) (ts : Nat) : HostState :=
  if (st.history.getD st.currentIndex emptySlot).down.isSome then
    { st with
      history := st.history.set st.currentIndex
        ⟨(st.history.getD st.currentIndex emptySlot).down, some ts⟩
      currentIndex := (st.currentIndex + 1) % historyCount
      lastStatus := some true }
  else
    { st with lastStatus := some true }

/-- Method `PingMonitor.update_host_status` on one probe result, together
with the transition event it records (if any).  As in the source, the
counters are updated first and the guards then read the updated counter
and the status captured on entry (`current_status`); the guards are the
literal `>= threshold` and `current_status is not False`
(resp. `is False` / `is None`) checks. -/
def update_host_status (s : MonitorSettings) (st : HostState) (success : Bool) (ts : Nat) :
    HostState × Option Event :=
  if success = false then
    if s.failure_threshold ≤ st.consecutiveFailures + 1 ∧ st.lastStatus ≠ some false then
      (update_failure_status
        { st with consecutiveFailures := st.consecutiveFailures + 1,
                  consecutiveSuccesses := 0 } ts,
       some (Event.down ts))
    else
      ({ st with consecutiveFailures := st.consecutiveFailures + 1,
                 consecutiveSuccesses := 0 }, none)
  else
    if st.lastStatus = some false then
      if s.recovery_threshold ≤ st.consecutiveSuccesses + 1 then
        (update_recovery_status
          { st with consecutiveFailures := 0,
                    consecutiveSuccesses := st.consecutiveSuccesses + 1 } ts,
         some (Event.up ts))
      else
        ({ st with consecutiveFailures := 0,
                   consecutiveSuccesses := st.consecutiveSuccesses + 1 }, none)
    else if st.lastStatus = none then
      ({ st with consecutiveFailures := 0,
                 consecutiveSuccesses := st.consecutiveSuccesses + 1,
                 lastStatus := some true }, none)
    else
      ({ st with consecutiveFailures := 0,
                 consecutiveSuccesses := st.consecutiveSuccesses + 1 }, none)

/-- State after one processed probe result `(success, timestamp)`. -/
def stepState (s : MonitorSettings) (st : HostState) (r : Bool × Nat) : HostState :=
  (update_host_status s st r.1 r.2).1

/-- Event recorded by one processed probe result, if any. -/
def stepEvent (s : MonitorSettings) (st : HostState) (r : Bool × Nat) : Option Event :=
  (update_host_status s st r.1 r.2).2

/-- State after a sequence of processed probe results. -/
def runState (s : MonitorSettings) (st : HostState) : List (Bool × Nat) → HostState
  | [] => st
  | r :: rs => runState s (stepState s st r) rs

/-- Events recorded along a sequence of processed probe results. -/
def runEvents (s : MonitorSettings) (st : HostState) : List (Bool × Nat) → List Event
  | [] => []
  | r :: rs => (stepEvent s st r).toList ++ runEvents s (stepState s st r) rs

/-- A still-open slot: a down timestamp and no up timestamp yet. -/
def slotOpen (sl : Slot) : Bool := sl.down.isSome && sl.up.isNone

/-- Openness of the slot at ring position `j`. -/
def openAt (st : HostState) (j : Nat) : Bool := slotOpen (st.history.getD j emptySlot)

/-- Timing state of `monitor_all_groups`: `last_update_time` and the
monotonic clock, in deciseconds (the loop polls with `asyncio.sleep(0.1)`,
modelled as exact one-decisecond clock increments). -/
structure LoopState where
  lastUpdate : Nat
  now : Nat
deriving DecidableEq

/-- Clock value at which the polling check `elapsed < interval` first
fails, starting from `st`: the loop sleeps in unit steps until
`now - lastUpdate >= interval`, so the sweep is triggered at
`max now (lastUpdate + interval)`. -/
def triggerTime (interval : Nat) (st : LoopState) : Nat :=
  max st.now (st.lastUpdate + interval)

/-- One sweep iteration of `monitor_all_groups`: the sweep is triggered at
`triggerTime`, runs for `dur`, and afterwards the source executes
`last_update_time = current_time` where `current_time` is the timestamp
captured at the top of the iteration, before the sweep ran. -/
def sweepStep (interval : Nat) (st : LoopState) (dur : Nat) : LoopState :=
  { lastUpdate := triggerTime interval st
    now := triggerTime interval st + dur }

/-- Pairs (trigger time, completion time) of successive sweeps whose
durations are `durs`. -/
def runSweeps (interval : Nat) (st : LoopState) : List Nat → List (Nat × Nat)
  | [] => []
  | d :: ds =>
    (triggerTime interval st, triggerTime interval st + d) ::
      runSweeps interval (sweepStep interval st d) ds

/-- Sweep schedule of `monitor_all_groups` from a cold start at clock
`start` (the source initializes `last_update_time = time.monotonic()`). -/
def monitorSweeps (interval start : Nat) (durs : List Nat) : List (Nat × Nat) :=
  runSweeps interval ⟨start, start⟩ durs

/-- Entry of the `ResultProcessor.statistics` default dict:
`{"success": 0, "total": 0, "last_status": None}`. -/
structure StatEntry where
  success : Nat
  total : Nat
  last_status : Option Bool
deriving DecidableEq

/-- Default value produced by the statistics `defaultdict`. -/
def defaultStat : StatEntry := ⟨0, 0, none⟩

/-- Lookup in the statistics map with the `defaultdict` default. -/
def getStat (stats : List (String × StatEntry)) (h : String) : StatEntry :=
  (stats.lookup h).getD defaultStat

/-- Update-or-insert in the statistics map (what writing to a
`defaultdict` entry does). -/
def setStat : List (String × StatEntry) → String → StatEntry → List (String × StatEntry)
  | [], h, e => [(h, e)]
  | (k, w) :: rest, h, e =>
    if k = h then (k, e) :: rest else (k, w) :: setStat rest h e

/-- Method `ResultProcessor.process_result` restricted to the `statistics`
map; the LRU cache and `last_results`, which no claim observes, are
omitted.  A result is the pair (host, success). -/
def process_result (stats : List (String × StatEntry)) (r : String × Bool) :
    List (String × StatEntry) :=
  setStat stats r.1
    { success := (getStat stats r.1).success + (if r.2 then 1 else 0)
      total := (getStat stats r.1).total + 1
      last_status := some r.2 }

/-- Method `ResultProcessor.get_host_stats`, returning the pair
(success rate, last status).  The rate is modelled exactly in `ℚ`; on the
concrete values of the claims Python's float arithmetic yields the same
exact values (e.g. `7/10*100` rounds to exactly `70.0`). -/
def get_host_stats (stats : List (String × StatEntry)) (h : String) : ℚ × Option Bool :=
  if (getStat stats h).total = 0 then (0, none)
  else (((getStat stats h).success : ℚ) / ((getStat stats h).total : ℚ) * 100,
        (getStat stats h).last_status)

/-- Whitespace removed by Python `str.strip()` (ASCII range). -/
def isPySpace (c : Char) : Bool :=
  c = ' ' || c = '\t' || c = '\n' || c = '\r' || c = '\x0b' || c = '\x0c'

/-- Strip `isPySpace` characters from both ends of a character list. -/
def trimChars (cs : List Char) : List Char :=
  ((cs.dropWhile isPySpace).reverse.dropWhile isPySpace).reverse

/-- Python `line.strip()` on the relevant (ASCII) inputs. -/
def pyStrip (s : String) : String := String.mk (trimChars s.data)

/-- Numeric value of a digit character. -/
def digitVal (c : Char) : Nat := c.toNat - 48

/-- Continuation of `parseDigits`: further digits, with single underscores
allowed only between digits (Python integer-literal grouping). -/
def parseDigitsAux (acc : Nat) : List Char → Option Nat
  | [] => some acc
  | '_' :: c :: cs =>
    if c.isDigit then parseDigitsAux (acc * 10 + digitVal c) cs else none
  | ['_'] => none
  | c :: cs =>
    if c.isDigit then parseDigitsAux (acc * 10 + digitVal c) cs else none

/-- Digit run of a Python integer literal: at least one digit, underscores
only between digits. -/
def parseDigits : List Char → Option Nat
  | [] => none
  | c :: cs => if c.isDigit then parseDigitsAux (digitVal c) cs else none

/-- Python `int(part)` as used by `ip_to_tuple`: surrounding whitespace is
ignored, then an optional sign and a non-empty digit run; anything else
raises `ValueError`, modelled as `none`. -/
def pyInt (cs : List Char) : Option Int :=
  match trimChars cs with
  | '+' :: rest => (parseDigits rest).map (fun n => (n : Int))
  | '-' :: rest => (parseDigits rest).map (fun n => -(n : Int))
  | rest => (parseDigits rest).map (fun n => (n : Int))

/-- Python `ip.split(".")`: split on every dot, keeping empty fields
(so `""` gives `[""]` and `"1..2"` gives `["1", "", "2"]`). -/
def splitDot : List Char → List (List Char)
  | [] => [[]]
  | c :: cs =>
    if c = '.' then [] :: splitDot cs
    else
      match splitDot cs with
      | [] => [[c]]
      | g :: gs => (c :: g) :: gs

/-- Key function `ip_to_tuple` nested in `sort_ip_addresses`: the tuple of
`int(part)` over the dot-separated fields, or the sentinel
`(999, 999, 999, 999)` when any field raises. -/
def ip_to_tuple (ip : String) : List Int :=
  match (splitDot ip.data).mapM pyInt with
  | some t => t
  | none => [999, 999, 999, 999]

/-- Python tuple comparison: lexicographic, a strict prefix is smaller. -/
def lexLe : List Int → List Int → Bool
  | [], _ => true
  | _ :: _, [] => false
  | a :: xs, b :: ys => if a < b then true else if b < a then false else lexLe xs ys

/-- Insertion of `x` after every already-placed element whose key is less
than or equal to `x`'s key (so that elements appearing later in the input
land after equal-key elements appearing earlier). -/
def insortIp (x : String) : List String → List String
  | [] => [x]
  | y :: ys =>
    if lexLe (ip_to_tuple y) (ip_to_tuple x) then y :: insortIp x ys
    else x :: y :: ys

/-- Method `PingMonitor.sort_ip_addresses`: Python's
`sorted(ips, key=ip_to_tuple)` is a stable sort by key, modelled as a
stable insertion sort (sorted-by-key output, a permutation of the input,
and equal-key elements kept in input order determine the output
uniquely, so any stable sort is extensionally this function). -/
def sort_ip_addresses (ips : List String) : List String :=
  ips.foldl (fun acc x => insortIp x acc) []

/-- Loader state of `read_groups`: the current group name, the insertion-
ordered `groups` dict, and the `seen_ips` set (the hosts for which
`initialize_host_status` was called), modelled as a duplicate-free list. -/
structure ReadState where
  currentGroup : String
  groups : List (String × List String)
  seen : List String
deriving DecidableEq

/-- Assignment `groups[g] = v` on an insertion-ordered dict: replace in
place if the key exists, else append. -/
def setGroup : List (String × List String) → String → List String → List (String × List String)
  | [], g, v => [(g, v)]
  | (k, w) :: rest, g, v =>
    if k = g then (k, v) :: rest else (k, w) :: setGroup rest g v

/-- Statement `groups[g].append(h)`.  In every state `read_groups`
produces, the current group is a key of the dict, so the empty case is
unreachable there. -/
def appendHost : List (String × List String) → String → String → List (String × List String)
  | [], g, h => [(g, [h])]
  | (k, w) :: rest, g, h =>
    if k = g then (k, w ++ [h]) :: rest else (k, w) :: appendHost rest g h

/-- Name of the implicit default group in `read_groups`. -/
def defaultGroupName : String := "기본그룹"

/-- Loader state at the top of `read_groups`. -/
def initReadState : ReadState :=
  { currentGroup := defaultGroupName
    groups := [(defaultGroupName, [])]
    seen := [] }

/-- Test `line.startswith("[") and line.endswith("]")`. -/
def isHeader (s : String) : Bool :=
  (s.data.head? == some '[') && (s.data.getLast? == some ']')

/-- Group name `line[1:-1]` of a header line. -/
def headerName (s : String) : String :=
  String.mk ((s.data.drop 1).dropLast)

/-- One iteration of the line loop in `read_groups`: strip the line, skip
it when empty, reset the (possibly new) group on a bracketed header, and
otherwise append the host line to the current group, initializing its
monitoring state only on first global occurrence. -/
def processLine (st : ReadState) (raw : String) : ReadState :=
  if (pyStrip raw).data = [] then st
  else if isHeader (pyStrip raw) then
    { currentGroup := headerName (pyStrip raw)
      groups := setGroup st.groups (headerName (pyStrip raw)) []
      seen := st.seen }
  else
    { st with
      groups := appendHost st.groups st.currentGroup (pyStrip raw)
      seen := if pyStrip raw ∈ st.seen then st.seen else pyStrip raw :: st.seen }

/-- Method `PingMonitor.read_groups` on the list of raw lines of the group
file: fold the line loop from the initial state, then sort every group's
host list with `sort_ip_addresses`. -/
def read_groups (lines : List String) : ReadState :=
  let st := lines.foldl processLine initReadState
  { st with groups := st.groups.map (fun g => (g.1, sort_ip_addresses g.2)) }

lemma getD_set_self {α : Type} (l : List α) (i : Nat) (v d : α) (h : i < l.length) :
    (l.set i v).getD i d = v := by
  induction l generalizing i with
  | nil => simp at h
  | cons b t ih =>
    cases i with
    | zero => rfl
    | succ n => simpa [List.getD] using ih n (by simpa using h)

lemma getD_set_ne {α : Type} (l : List α) (i j : Nat) (v d : α) (h : j ≠ i) :
    (l.set i v).getD j d = l.getD j d := by
  induction l generalizing i j with
  | nil => rfl
  | cons b t ih =>
    cases i with
    | zero =>
      cases j with
      | zero => exact absurd rfl h
      | succ m => rfl
    | succ n =>
      cases j with
      | zero => rfl
      | succ m => simpa [List.getD] using ih n m (fun hc => h (by rw [hc]))

lemma length_set_eq {α : Type} (l : List α) (i : Nat) (v : α) :
    (l.set i v).length = l.length := by
  simp

lemma uhs_false (s : MonitorSettings) (st : HostState) (ts : Nat) :
    update_host_status s st false ts =
      if s.failure_threshold ≤ st.consecutiveFailures + 1 ∧ st.lastStatus ≠ some false then
        (update_failure_status
          { st with consecutiveFailures := st.consecutiveFailures + 1,
                    consecutiveSuccesses := 0 } ts,
         some (Event.down ts))
      else
        ({ st with consecutiveFailures := st.consecutiveFailures + 1,
                   consecutiveSuccesses := 0 }, none) := by
  simp [update_host_status]

lemma uhs_true_down (s : MonitorSettings) (st : HostState) (ts : Nat)
    (h : st.lastStatus = some false) :
    update_host_status s st true ts =
      if s.recovery_threshold ≤ st.consecutiveSuccesses + 1 then
        (update_recovery_status
          { st with consecutiveFailures := 0,
                    consecutiveSuccesses := st.consecutiveSuccesses + 1 } ts,
         some (Event.up ts))
      else
        ({ st with consecutiveFailures := 0,
                   consecutiveSuccesses := st.consecutiveSuccesses + 1 }, none) := by
  simp [update_host_status, h]

lemma uhs_true_unknown (s : MonitorSettings) (st : HostState) (ts : Nat)
    (h : st.lastStatus = none) :
    update_host_status s st true ts =
      ({ st with consecutiveFailures := 0,
                 consecutiveSuccesses := st.consecutiveSuccesses + 1,
                 lastStatus := some true }, none) := by
  simp [update_host_status, h]

lemma uhs_true_up (s : MonitorSettings) (st : HostState) (ts : Nat)
    (h : st.lastStatus = some true) :
    update_host_status s st true ts =
      ({ st with consecutiveFailures := 0,
                 consecutiveSuccesses := st.consecutiveSuccesses + 1 }, none) := by
  simp [update_host_status, h]

/-- Invariant of all host states reachable from initialization: the ring
has 3 slots and the index is in range, at most one counter is non-zero,
a not-Down host has an accumulating failure counter still below the
threshold and no open slot, and a Down host has a success counter below
the recovery threshold and exactly one open slot, at the current index. -/
def HostInv (s : MonitorSettings) (st : HostState) : Prop :=
  st.history.length = historyCount ∧
  st.currentIndex < historyCount ∧
  (st.consecutiveFailures = 0 ∨ st.consecutiveSuccesses = 0) ∧
  (st.lastStatus ≠ some false →
    st.consecutiveFailures < s.failure_threshold ∧ ∀ j, openAt st j = false) ∧
  (st.lastStatus = some false →
    st.consecutiveSuccesses < s.recovery_threshold ∧
    openAt st st.currentIndex = true ∧
    ∀ j, j ≠ st.currentIndex → openAt st j = false)

lemma openAt_init (j : Nat) : openAt initialize_host_status j = false := by
  rcases j with _ | _ | _ | j <;> rfl

lemma inv_init (s : MonitorSettings) (hft : 1 ≤ s.failure_threshold) :
    HostInv s initialize_host_status := by
  refine ⟨rfl, by decide, Or.inl rfl, fun _ => ⟨hft, openAt_init⟩, fun h => ?_⟩
  exact absurd h (by simp [initialize_host_status])

lemma idx_lt_len {st : HostState}
    (hlen : st.history.length = historyCount) (hidx : st.currentIndex < historyCount) :
    st.currentIndex < st.history.length := by
  rw [hlen]; exact hidx

lemma inv_step (s : MonitorSettings) (hft : 1 ≤ s.failure_threshold)
    (hrt : 1 ≤ s.recovery_threshold) (st : HostState) (hinv : HostInv s st)
    (r : Bool × Nat) : HostInv s (stepState s st r) := by
  obtain ⟨hlen, hidx, hmux, hnd, hd⟩ := hinv
  obtain ⟨success, ts⟩ := r
  cases success with
  | false =>
    by_cases hfire : s.failure_threshold ≤ st.consecutiveFailures + 1 ∧
        st.lastStatus ≠ some false
    · have hstep : stepState s st (false, ts) =
          update_failure_status
            { st with consecutiveFailures := st.consecutiveFailures + 1,
                      consecutiveSuccesses := 0 } ts := by
        simp only [stepState, uhs_false, if_pos hfire]
      rw [hstep]
      obtain ⟨hcf, hall⟩ := hnd hfire.2
      refine ⟨by simpa [update_failure_status] using hlen,
              by simpa [update_failure_status] using hidx,
              Or.inr rfl, fun h => (h rfl).elim, fun _ => ⟨hrt, ?_, ?_⟩⟩
      · show slotOpen ((st.history.set st.currentIndex ⟨some ts, none⟩).getD
          st.currentIndex emptySlot) = true
        rw [getD_set_self _ _ _ _ (idx_lt_len hlen hidx)]
        rfl
      · intro j hj
        have hj' : j ≠ st.currentIndex := hj
        show slotOpen ((st.history.set st.currentIndex ⟨some ts, none⟩).getD
          j emptySlot) = false
        rw [getD_set_ne _ _ _ _ _ hj']
        exact hall j
    · have hstep : stepState s st (false, ts) =
          { st with consecutiveFailures := st.consecutiveFailures + 1,
                    consecutiveSuccesses := 0 } := by
        simp only [stepState, uhs_false, if_neg hfire]
      rw [hstep]
      refine ⟨hlen, hidx, Or.inr rfl, fun h => ?_, fun h => ?_⟩
      · have h2 : st.lastStatus ≠ some false := h
        have h1 : ¬ s.failure_threshold ≤ st.consecutiveFailures + 1 := by
          intro hle; exact hfire ⟨hle, h2⟩
        refine ⟨?_, fun j => (hnd h2).2 j⟩
        show st.consecutiveFailures + 1 < s.failure_threshold
        omega
      · obtain ⟨hcs, hop, hcl⟩ := hd h
        refine ⟨?_, hop, hcl⟩
        show 0 < s.recovery_threshold
        omega
  | true =>
    cases hls : st.lastStatus with
    | none =>
      have hstep : stepState s st (true, ts) =
          { st with consecutiveFailures := 0,
                    consecutiveSuccesses := st.consecutiveSuccesses + 1,
                    lastStatus := some true } := by
        simp only [stepState, uhs_true_unknown s st ts hls]
      rw [hstep]
      have hne : st.lastStatus ≠ some false := by rw [hls]; exact fun h => by cases h
      refine ⟨hlen, hidx, Or.inl rfl, fun _ => ⟨hft, fun j => (hnd hne).2 j⟩,
              fun h => by cases h⟩
    | some b =>
      cases b with
      | true =>
        have hstep : stepState s st (true, ts) =
            { st with consecutiveFailures := 0,
                      consecutiveSuccesses := st.consecutiveSuccesses + 1 } := by
          simp only [stepState, uhs_true_up s st ts hls]
        rw [hstep]
        have hne : st.lastStatus ≠ some false := by rw [hls]; exact fun h => by cases h
        refine ⟨hlen, hidx, Or.inl rfl, fun _ => ⟨hft, fun j => (hnd hne).2 j⟩,
                fun h => ?_⟩
        · have h2 : st.lastStatus = some false := h
          rw [hls] at h2
          cases h2
      | false =>
        obtain ⟨hcs, hop, hcl⟩ := hd hls
        have hdown : (st.history.getD st.currentIndex emptySlot).down.isSome = true := by
          simp only [openAt, slotOpen, Bool.and_eq_true] at hop
          exact hop.1
        by_cases hfire : s.recovery_threshold ≤ st.consecutiveSuccesses + 1
        · have hstep : stepState s st (true, ts) =
              { st with consecutiveFailures := 0,
                        consecutiveSuccesses := st.consecutiveSuccesses + 1,
                        history := st.history.set st.currentIndex
                          ⟨(st.history.getD st.currentIndex emptySlot).down, some ts⟩,
                        currentIndex := (st.currentIndex + 1) % historyCount,
                        lastStatus := some true } := by
            simp only [stepState, uhs_true_down s st ts hls, if_pos hfire]
            unfold update_recovery_status
            dsimp only
            rw [if_pos hdown]
          rw [hstep]
          refine ⟨by simpa using hlen, Nat.mod_lt _ (by decide), Or.inl rfl,
                  fun _ => ⟨hft, fun j => ?_⟩, fun h => by cases h⟩
          · show slotOpen ((st.history.set st.currentIndex
              ⟨(st.history.getD st.currentIndex emptySlot).down, some ts⟩).getD
              j emptySlot) = false
            by_cases hj : j = st.currentIndex
            · subst hj
              rw [getD_set_self _ _ _ _ (idx_lt_len hlen hidx)]
              simp [slotOpen]
            · rw [getD_set_ne _ _ _ _ _ hj]
              exact hcl j hj
        · have hstep : stepState s st (true, ts) =
              { st with consecutiveFailures := 0,
                        consecutiveSuccesses := st.consecutiveSuccesses + 1 } := by
            simp only [stepState, uhs_true_down s st ts hls, if_neg hfire]
          rw [hstep]
          refine ⟨hlen, hidx, Or.inl rfl, fun h => ?_, fun _ => ?_⟩
          · exact absurd (show st.lastStatus = some false from hls) h
          · refine ⟨?_, hop, hcl⟩
            show st.consecutiveSuccesses + 1 < s.recovery_threshold
            omega

lemma inv_run (s : MonitorSettings) (hft : 1 ≤ s.failure_threshold)
    (hrt : 1 ≤ s.recovery_threshold) (rs : List (Bool × Nat)) :
    ∀ (st : HostState), HostInv s st → HostInv s (runState s st rs) := by
  induction rs with
  | nil => exact fun st h => h
  | cons r rs ih => exact fun st h => ih _ (inv_step s hft hrt st h r)

lemma inv_reach (s : MonitorSettings) (hft : 1 ≤ s.failure_threshold)
    (hrt : 1 ≤ s.recovery_threshold) (trace : List (Bool × Nat)) :
    HostInv s (runState s initialize_host_status trace) :=
  inv_run s hft hrt trace _ (inv_init s hft)

lemma down_iff_aux (s : MonitorSettings) (st : HostState) (hinv : HostInv s st)
    (success : Bool) (ts : Nat) :
    stepEvent s st (success, ts) = some (Event.down ts) ↔
      success = false ∧
      (stepState s st (success, ts)).consecutiveFailures = s.failure_threshold ∧
      st.lastStatus ≠ some false := by
  obtain ⟨hlen, hidx, hmux, hnd, hd⟩ := hinv
  cases success with
  | false =>
    by_cases hfire : s.failure_threshold ≤ st.consecutiveFailures + 1 ∧
        st.lastStatus ≠ some false
    · have he : stepEvent s st (false, ts) = some (Event.down ts) := by
        simp only [stepEvent, uhs_false, if_pos hfire]
      have hcs : (stepState s st (false, ts)).consecutiveFailures =
          st.consecutiveFailures + 1 := by
        simp only [stepState, uhs_false, if_pos hfire]
        rfl
      have hcf := (hnd hfire.2).1
      rw [he, hcs]
      constructor
      · intro _
        exact ⟨rfl, by omega, hfire.2⟩
      · intro _
        rfl
    · have he : stepEvent s st (false, ts) = none := by
        simp only [stepEvent, uhs_false, if_neg hfire]
      have hcs : (stepState s st (false, ts)).consecutiveFailures =
          st.consecutiveFailures + 1 := by
        simp only [stepState, uhs_false, if_neg hfire]
      rw [he, hcs]
      constructor
      · intro h
        cases h
      · rintro ⟨-, h2, h3⟩
        exact absurd ⟨by omega, h3⟩ hfire
  | true =>
    have hne : stepEvent s st (true, ts) ≠ some (Event.down ts) := by
      cases hls : st.lastStatus with
      | none => simp [stepEvent, uhs_true_unknown s st ts hls]
      | some b =>
        cases b with
        | true => simp [stepEvent, uhs_true_up s st ts hls]
        | false =>
          by_cases hfire : s.recovery_threshold ≤ st.consecutiveSuccesses + 1
          · simp [stepEvent, uhs_true_down s st ts hls, if_pos hfire]
          · simp [stepEvent, uhs_true_down s st ts hls, if_neg hfire]
    constructor
    · intro h
      exact absurd h hne
    · rintro ⟨h, -⟩
      cases h

/-- Claim C1: for every host and every sequence of processed probe results,
a Down transition is recorded in the host's history exactly when the
failure counter has just reached the failure threshold while the host's
last status is not Down; in particular, with failure threshold 3, three
consecutive failed probes record exactly one Down event and a fourth
consecutive failure records no additional event. -/
theorem C1_down_transition_iff :
    (∀ (s : MonitorSettings), 1 ≤ s.failure_threshold → 1 ≤ s.recovery_threshold →
      ∀ (trace : List (Bool × Nat)) (success : Bool) (ts : Nat),
        stepEvent s (runState s initialize_host_status trace) (success, ts) =
            some (Event.down ts) ↔
          success = false ∧
          (stepState s (runState s initialize_host_status trace)
              (success, ts)).consecutiveFailures = s.failure_threshold ∧
          (runState s initialize_host_status trace).lastStatus ≠ some false) ∧
    runEvents ⟨1, 3, 2, 500⟩ initialize_host_status
        [(false, 1), (false, 2), (false, 3), (false, 4)] = [Event.down 3] := by
  constructor
  · intro s hft hrt trace success ts
    exact down_iff_aux s _ (inv_reach s hft hrt trace) success ts
  · decide

/-- Witness for C1: with failure threshold 3, after two failed probes a
third failure records the Down event, and the characterization holds at
that concrete input. -/
theorem C1_witness :
    (1 ≤ (3 : Nat)) ∧ (1 ≤ (2 : Nat)) ∧
    (stepEvent ⟨1, 3, 2, 500⟩
        (runState ⟨1, 3, 2, 500⟩ initialize_host_status [(false, 1), (false, 2)])
        (false, 7) = some (Event.down 7) ↔
      false = false ∧
      (stepState ⟨1, 3, 2, 500⟩
          (runState ⟨1, 3, 2, 500⟩ initialize_host_status [(false, 1), (false, 2)])
          (false, 7)).consecutiveFailures = (3 : Nat) ∧
      (runState ⟨1, 3, 2, 500⟩ initialize_host_status
          [(false, 1), (false, 2)]).lastStatus ≠ some false) :=
  ⟨by decide, by decide,
   C1_down_transition_iff.1 ⟨1, 3, 2, 500⟩ (by decide) (by decide)
     [(false, 1), (false, 2)] false 7⟩

lemma up_transition_aux (s : MonitorSettings) (st : HostState) (hinv : HostInv s st)
    (hls : st.lastStatus = some false) (ts : Nat) :
    (openAt st st.currentIndex = true ∧
      ∀ j, j ≠ st.currentIndex → openAt st j = false) ∧
    (stepEvent s st (true, ts) = some (Event.up ts) ↔
      st.consecutiveSuccesses + 1 = s.recovery_threshold) ∧
    (st.consecutiveSuccesses + 1 = s.recovery_threshold →
      stepState s st (true, ts) =
        { st with
          consecutiveFailures := 0
          consecutiveSuccesses := st.consecutiveSuccesses + 1
          history := st.history.set st.currentIndex
            ⟨(st.history.getD st.currentIndex emptySlot).down, some ts⟩
          currentIndex := (st.currentIndex + 1) % historyCount
          lastStatus := some true } ∧
      ∀ j, openAt (stepState s st (true, ts)) j = false) ∧
    (st.consecutiveSuccesses + 1 < s.recovery_threshold →
      stepEvent s st (true, ts) = none ∧
      stepState s st (true, ts) =
        { st with consecutiveFailures := 0,
                  consecutiveSuccesses := st.consecutiveSuccesses + 1 } ∧
      openAt (stepState s st (true, ts)) st.currentIndex = true) := by
  obtain ⟨hlen, hidx, hmux, hnd, hd⟩ := hinv
  obtain ⟨hcs, hop, hcl⟩ := hd hls
  have hdown : (st.history.getD st.currentIndex emptySlot).down.isSome = true := by
    simp only [openAt, slotOpen, Bool.and_eq_true] at hop
    exact hop.1
  refine ⟨⟨hop, hcl⟩, ?_, ?_, ?_⟩
  · by_cases hfire : s.recovery_threshold ≤ st.consecutiveSuccesses + 1
    · have he : stepEvent s st (true, ts) = some (Event.up ts) := by
        simp only [stepEvent, uhs_true_down s st ts hls, if_pos hfire]
      rw [he]
      constructor
      · intro _
        omega
      · intro _
        rfl
    · have he : stepEvent s st (true, ts) = none := by
        simp only [stepEvent, uhs_true_down s st ts hls, if_neg hfire]
      rw [he]
      constructor
      · intro h
        cases h
      · intro h
        omega
  · intro heq
    have hfire : s.recovery_threshold ≤ st.consecutiveSuccesses + 1 := by omega
    have hstep : stepState s st (true, ts) =
        { st with
          consecutiveFailures := 0
          consecutiveSuccesses := st.consecutiveSuccesses + 1
          history := st.history.set st.currentIndex
            ⟨(st.history.getD st.currentIndex emptySlot).down, some ts⟩
          currentIndex := (st.currentIndex + 1) % historyCount
          lastStatus := some true } := by
      simp only [stepState, uhs_true_down s st ts hls, if_pos hfire]
      unfold update_recovery_status
      dsimp only
      rw [if_pos hdown]
    refine ⟨hstep, ?_⟩
    intro j
    rw [hstep]
    show slotOpen ((st.history.set st.currentIndex
      ⟨(st.history.getD st.currentIndex emptySlot).down, some ts⟩).getD
      j emptySlot) = false
    by_cases hj : j = st.currentIndex
    · subst hj
      rw [getD_set_self _ _ _ _ (idx_lt_len hlen hidx)]
      simp [slotOpen]
    · rw [getD_set_ne _ _ _ _ _ hj]
      exact hcl j hj
  · intro hlt
    have hfire : ¬ s.recovery_threshold ≤ st.consecutiveSuccesses + 1 := by omega
    have hstep : stepState s st (true, ts) =
        { st with consecutiveFailures := 0,
                  consecutiveSuccesses := st.consecutiveSuccesses + 1 } := by
      simp only [stepState, uhs_true_down s st ts hls, if_neg hfire]
    refine ⟨by simp only [stepEvent, uhs_true_down s st ts hls, if_neg hfire], hstep, ?_⟩
    rw [hstep]
    exact hop

/-- Claim C2: for every reachable host state whose last status is Down,
there is exactly one open ring slot, at the current index; feeding a
successful probe records an Up transition exactly when the success
counter reaches the recovery threshold, and that transition closes that
open slot (keeping its down timestamp, setting its up timestamp) and
advances the ring index by exactly one modulo the ring capacity, while
fewer than recovery-threshold consecutive successes record no Up event
and leave the slot open. -/
theorem C2_up_transition_closes_slot :
    ∀ (s : MonitorSettings), 1 ≤ s.failure_threshold → 1 ≤ s.recovery_threshold →
    ∀ (trace : List (Bool × Nat)) (ts : Nat) (st : HostState),
      st = runState s initialize_host_status trace →
      st.lastStatus = some false →
      (openAt st st.currentIndex = true ∧
        ∀ j, j ≠ st.currentIndex → openAt st j = false) ∧
      (stepEvent s st (true, ts) = some (Event.up ts) ↔
        st.consecutiveSuccesses + 1 = s.recovery_threshold) ∧
      (st.consecutiveSuccesses + 1 = s.recovery_threshold →
        stepState s st (true, ts) =
          { st with
            consecutiveFailures := 0
            consecutiveSuccesses := st.consecutiveSuccesses + 1
            history := st.history.set st.currentIndex
              ⟨(st.history.getD st.currentIndex emptySlot).down, some ts⟩
            currentIndex := (st.currentIndex + 1) % historyCount
            lastStatus := some true } ∧
        ∀ j, openAt (stepState s st (true, ts)) j = false) ∧
      (st.consecutiveSuccesses + 1 < s.recovery_threshold →
        stepEvent s st (true, ts) = none ∧
        stepState s st (true, ts) =
          { st with consecutiveFailures := 0,
                    consecutiveSuccesses := st.consecutiveSuccesses + 1 } ∧
        openAt (stepState s st (true, ts)) st.currentIndex = true) := by
  intro s hft hrt trace ts st hst hls
  subst hst
  exact up_transition_aux s _ (inv_reach s hft hrt trace) hls ts

/-- Witness for C2: with recovery threshold 2, after one failed probe the
host is Down with one open slot, and the characterization holds at that
concrete reachable state. -/
theorem C2_witness :
    ((1 : Nat) ≤ 1) ∧ ((1 : Nat) ≤ 2) ∧
    (runState ⟨1, 1, 2, 500⟩ initialize_host_status [(false, 0)]).lastStatus = some false ∧
    (stepEvent ⟨1, 1, 2, 500⟩
        (runState ⟨1, 1, 2, 500⟩ initialize_host_status [(false, 0)]) (true, 9) =
          some (Event.up 9) ↔
      (runState ⟨1, 1, 2, 500⟩ initialize_host_status
          [(false, 0)]).consecutiveSuccesses + 1 = (2 : Nat)) :=
  ⟨by decide, by decide, by decide,
   (C2_up_transition_closes_slot ⟨1, 1, 2, 500⟩ (by decide) (by decide)
     [(false, 0)] 9 _ rfl (by decide)).2.1⟩

lemma ring_step_aux (s : MonitorSettings) (st : HostState) (hinv : HostInv s st)
    (r : Bool × Nat) :
    ((stepState s st r).currentIndex ≠ st.currentIndex →
      (stepState s st r).currentIndex = (st.currentIndex + 1) % historyCount ∧
      (st.history.getD st.currentIndex emptySlot).down.isSome = true ∧
      ((stepState s st r).history.getD st.currentIndex emptySlot).up.isSome = true) ∧
    (∀ j, openAt st j = true →
      ((stepState s st r).history.getD j emptySlot).down =
        (st.history.getD j emptySlot).down ∧
      (openAt (stepState s st r) j = true ∨
        ((stepState s st r).history.getD j emptySlot).up.isSome = true)) := by
  obtain ⟨hlen, hidx, hmux, hnd, hd⟩ := hinv
  obtain ⟨success, ts⟩ := r
  cases success with
  | false =>
    by_cases hfire : s.failure_threshold ≤ st.consecutiveFailures + 1 ∧
        st.lastStatus ≠ some false
    · have hstep : stepState s st (false, ts) =
          update_failure_status
            { st with consecutiveFailures := st.consecutiveFailures + 1,
                      consecutiveSuccesses := 0 } ts := by
        simp only [stepState, uhs_false, if_pos hfire]
      rw [hstep]
      have hall := (hnd hfire.2).2
      refine ⟨fun h => (h rfl).elim, fun j hopj => ?_⟩
      rw [hall j] at hopj
      cases hopj
    · have hstep : stepState s st (false, ts) =
          { st with consecutiveFailures := st.consecutiveFailures + 1,
                    consecutiveSuccesses := 0 } := by
        simp only [stepState, uhs_false, if_neg hfire]
      rw [hstep]
      exact ⟨fun h => (h rfl).elim, fun j hopj => ⟨rfl, Or.inl hopj⟩⟩
  | true =>
    cases hls : st.lastStatus with
    | none =>
      have hstep : stepState s st (true, ts) =
          { st with consecutiveFailures := 0,
                    consecutiveSuccesses := st.consecutiveSuccesses + 1,
                    lastStatus := some true } := by
        simp only [stepState, uhs_true_unknown s st ts hls]
      rw [hstep]
      exact ⟨fun h => (h rfl).elim, fun j hopj => ⟨rfl, Or.inl hopj⟩⟩
    | some b =>
      cases b with
      | true =>
        have hstep : stepState s st (true, ts) =
            { st with consecutiveFailures := 0,
                      consecutiveSuccesses := st.consecutiveSuccesses + 1 } := by
          simp only [stepState, uhs_true_up s st ts hls]
        rw [hstep]
        exact ⟨fun h => (h rfl).elim, fun j hopj => ⟨rfl, Or.inl hopj⟩⟩
      | false =>
        obtain ⟨hcs, hop, hcl⟩ := hd hls
        have hdown : (st.history.getD st.currentIndex emptySlot).down.isSome = true := by
          simp only [openAt, slotOpen, Bool.and_eq_true] at hop
          exact hop.1
        by_cases hfire : s.recovery_threshold ≤ st.consecutiveSuccesses + 1
        · have hstep : stepState s st (true, ts) =
              { st with
                consecutiveFailures := 0
                consecutiveSuccesses := st.consecutiveSuccesses + 1
                history := st.history.set st.currentIndex
                  ⟨(st.history.getD st.currentIndex emptySlot).down, some ts⟩
                currentIndex := (st.currentIndex + 1) % historyCount
                lastStatus := some true } := by
            simp only [stepState, uhs_true_down s st ts hls, if_pos hfire]
            unfold update_recovery_status
            dsimp only
            rw [if_pos hdown]
          rw [hstep]
          constructor
          · intro _
            refine ⟨rfl, hdown, ?_⟩
            show ((st.history.set st.currentIndex
              ⟨(st.history.getD st.currentIndex emptySlot).down, some ts⟩).getD
              st.currentIndex emptySlot).up.isSome = true
            rw [getD_set_self _ _ _ _ (idx_lt_len hlen hidx)]
            rfl
          · intro j hopj
            by_cases hj : j = st.currentIndex
            · subst hj
              constructor
              · show ((st.history.set st.currentIndex
                  ⟨(st.history.getD st.currentIndex emptySlot).down, some ts⟩).getD
                  st.currentIndex emptySlot).down =
                    (st.history.getD st.currentIndex emptySlot).down
                rw [getD_set_self _ _ _ _ (idx_lt_len hlen hidx)]
              · refine Or.inr ?_
                show ((st.history.set st.currentIndex
                  ⟨(st.history.getD st.currentIndex emptySlot).down, some ts⟩).getD
                  st.currentIndex emptySlot).up.isSome = true
                rw [getD_set_self _ _ _ _ (idx_lt_len hlen hidx)]
                rfl
            · rw [hcl j hj] at hopj
              cases hopj
        · have hstep : stepState s st (true, ts) =
              { st with consecutiveFailures := 0,
                        consecutiveSuccesses := st.consecutiveSuccesses + 1 } := by
            simp only [stepState, uhs_true_down s st ts hls, if_neg hfire]
          rw [hstep]
          exact ⟨fun h => (h rfl).elim, fun j hopj => ⟨rfl, Or.inl hopj⟩⟩

/-- Claim C3: the per-host transition-history ring never loses a
still-open entry (a slot with a down timestamp and no up timestamp) by
overwriting it: one processed probe from any reachable state advances the
ring index only by closing the open slot at the current index, and every
open slot keeps its down timestamp, either staying open or being closed;
consequently, with ring capacity 3, after 4 complete down-then-up cycles
the first cycle's record has been overwritten and the records of cycles
2 through 4 remain retrievable. -/
theorem C3_ring_never_overwrites_open :
    (∀ (s : MonitorSettings), 1 ≤ s.failure_threshold → 1 ≤ s.recovery_threshold →
      ∀ (trace : List (Bool × Nat)) (r : Bool × Nat) (st : HostState),
        st = runState s initialize_host_status trace →
        ((stepState s st r).currentIndex ≠ st.currentIndex →
          (stepState s st r).currentIndex = (st.currentIndex + 1) % historyCount ∧
          (st.history.getD st.currentIndex emptySlot).down.isSome = true ∧
          ((stepState s st r).history.getD st.currentIndex emptySlot).up.isSome = true) ∧
        (∀ j, openAt st j = true →
          ((stepState s st r).history.getD j emptySlot).down =
            (st.history.getD j emptySlot).down ∧
          (openAt (stepState s st r) j = true ∨
            ((stepState s st r).history.getD j emptySlot).up.isSome = true))) ∧
    ((runState ⟨1, 1, 1, 500⟩ initialize_host_status
        [(false, 1), (true, 2), (false, 3), (true, 4), (false, 5), (true, 6),
         (false, 7), (true, 8)]).history =
      [⟨some 7, some 8⟩, ⟨some 3, some 4⟩, ⟨some 5, some 6⟩] ∧
     (runState ⟨1, 1, 1, 500⟩ initialize_host_status
        [(false, 1), (true, 2), (false, 3), (true, 4), (false, 5), (true, 6),
         (false, 7), (true, 8)]).currentIndex = 1) := by
  constructor
  · intro s hft hrt trace r st hst
    subst hst
    exact ring_step_aux s _ (inv_reach s hft hrt trace) r
  · exact ⟨by decide, by decide⟩

/-- Witness for C3: a confirmed recovery step from a concrete reachable
Down state advances the index and closes the open slot. -/
theorem C3_witness :
    ((1 : Nat) ≤ 1) ∧ ((1 : Nat) ≤ 2) ∧
    ((stepState ⟨1, 1, 1, 500⟩
        (runState ⟨1, 1, 1, 500⟩ initialize_host_status [(false, 0)])
        (true, 4)).currentIndex ≠
      (runState ⟨1, 1, 1, 500⟩ initialize_host_status [(false, 0)]).currentIndex →
      (stepState ⟨1, 1, 1, 500⟩
          (runState ⟨1, 1, 1, 500⟩ initialize_host_status [(false, 0)])
          (true, 4)).currentIndex =
        ((runState ⟨1, 1, 1, 500⟩ initialize_host_status
            [(false, 0)]).currentIndex + 1) % historyCount ∧
      ((runState ⟨1, 1, 1, 500⟩ initialize_host_status
          [(false, 0)]).history.getD
        (runState ⟨1, 1, 1, 500⟩ initialize_host_status [(false, 0)]).currentIndex
        emptySlot).down.isSome = true ∧
      ((stepState ⟨1, 1, 1, 500⟩
          (runState ⟨1, 1, 1, 500⟩ initialize_host_status [(false, 0)])
          (true, 4)).history.getD
        (runState ⟨1, 1, 1, 500⟩ initialize_host_status [(false, 0)]).currentIndex
        emptySlot).up.isSome = true) :=
  ⟨by decide, by decide,
   (C3_ring_never_overwrites_open.1 ⟨1, 1, 1, 500⟩ (by decide) (by decide)
     [(false, 0)] (true, 4) _ rfl).1⟩

lemma urs_cf (st : HostState) (ts : Nat) :
    (update_recovery_status st ts).consecutiveFailures = st.consecutiveFailures := by
  unfold update_recovery_status
  split <;> rfl

lemma succ_resets_cf (s : MonitorSettings) (st : HostState) (ts : Nat) :
    (stepState s st (true, ts)).consecutiveFailures = 0 := by
  cases hls : st.lastStatus with
  | none => simp [stepState, uhs_true_unknown s st ts hls]
  | some b =>
    cases b with
    | true => simp [stepState, uhs_true_up s st ts hls]
    | false =>
      by_cases hfire : s.recovery_threshold ≤ st.consecutiveSuccesses + 1
      · simp [stepState, uhs_true_down s st ts hls, if_pos hfire, urs_cf]
      · simp [stepState, uhs_true_down s st ts hls, if_neg hfire]

lemma fail_resets_cs (s : MonitorSettings) (st : HostState) (ts : Nat) :
    (stepState s st (false, ts)).consecutiveSuccesses = 0 := by
  by_cases hfire : s.failure_threshold ≤ st.consecutiveFailures + 1 ∧
      st.lastStatus ≠ some false
  · simp [stepState, uhs_false, if_pos hfire, update_failure_status]
  · simp [stepState, uhs_false, if_neg hfire]

lemma mutex_step (s : MonitorSettings) (st : HostState) (r : Bool × Nat) :
    (stepState s st r).consecutiveFailures = 0 ∨
    (stepState s st r).consecutiveSuccesses = 0 := by
  obtain ⟨success, ts⟩ := r
  cases success with
  | false => exact Or.inr (fail_resets_cs s st ts)
  | true => exact Or.inl (succ_resets_cf s st ts)

lemma mutex_run (s : MonitorSettings) (rs : List (Bool × Nat)) :
    ∀ st : HostState,
      (st.consecutiveFailures = 0 ∨ st.consecutiveSuccesses = 0) →
      ((runState s st rs).consecutiveFailures = 0 ∨
       (runState s st rs).consecutiveSuccesses = 0) := by
  induction rs with
  | nil => exact fun st h => h
  | cons r rs ih => exact fun st _ => ih _ (mutex_step s st r)

/-- Claim C4: for every host, after host-state initialization and after
each processed probe result, at most one of the failure and success
counters is non-zero; moreover a single successful probe resets the
failure counter to zero in every state (even when it does not yet confirm
recovery), and a single failed probe resets the success counter to zero
in every state. -/
theorem C4_counters_mutually_exclusive :
    ∀ (s : MonitorSettings) (trace : List (Bool × Nat)),
      ((runState s initialize_host_status trace).consecutiveFailures = 0 ∨
       (runState s initialize_host_status trace).consecutiveSuccesses = 0) ∧
      ∀ (st : HostState) (ts : Nat),
        (stepState s st (true, ts)).consecutiveFailures = 0 ∧
        (stepState s st (false, ts)).consecutiveSuccesses = 0 := by
  intro s trace
  exact ⟨mutex_run s trace initialize_host_status (Or.inl rfl),
         fun st ts => ⟨succ_resets_cf s st ts, fail_resets_cs s st ts⟩⟩

/-- Trace of `n` failed probes with timestamps `0, 1, ..., n - 1`. -/
def failTrace (n : Nat) : List (Bool × Nat) := (List.range n).map (fun i => (false, i))

lemma failTrace_succ (k : Nat) : failTrace (k + 1) = failTrace k ++ [(false, k)] := by
  simp [failTrace, List.range_succ]

lemma runState_append (s : MonitorSettings) (l1 l2 : List (Bool × Nat)) :
    ∀ st, runState s st (l1 ++ l2) = runState s (runState s st l1) l2 := by
  induction l1 with
  | nil => exact fun st => rfl
  | cons r rs ih =>
    intro st
    simp only [List.cons_append, runState]
    exact ih _

lemma runEvents_append (s : MonitorSettings) (l1 l2 : List (Bool × Nat)) :
    ∀ st, runEvents s st (l1 ++ l2) =
      runEvents s st l1 ++ runEvents s (runState s st l1) l2 := by
  induction l1 with
  | nil => exact fun st => rfl
  | cons r rs ih =>
    intro st
    show (stepEvent s st r).toList ++ runEvents s (stepState s st r) (rs ++ l2) =
      ((stepEvent s st r).toList ++ runEvents s (stepState s st r) rs) ++
        runEvents s (runState s (stepState s st r) rs) l2
    rw [ih, List.append_assoc]

lemma run_failTrace (s : MonitorSettings) :
    ∀ k, k < s.failure_threshold →
      runState s initialize_host_status (failTrace k) =
        { lastStatus := none, history := List.replicate historyCount emptySlot,
          currentIndex := 0, consecutiveFailures := k, consecutiveSuccesses := 0 } ∧
      runEvents s initialize_host_status (failTrace k) = [] := by
  intro k
  induction k with
  | zero => exact fun _ => ⟨rfl, rfl⟩
  | succ n ih =>
    intro h
    obtain ⟨h1, h2⟩ := ih (by omega)
    rw [failTrace_succ, runState_append, runEvents_append, h1, h2]
    have hnf : ¬ s.failure_threshold ≤ n + 1 := by omega
    constructor
    · simp [runState, stepState, uhs_false, hnf]
    · simp [runEvents, stepEvent, uhs_false, hnf]

/-- Claim C5: for a host whose last status is still Unknown (never yet
observed Up), consecutive failed probes accumulate the failure counter
normally and record no event while below the threshold, and a Down
transition fires directly from Unknown once the counter reaches the
failure threshold, because the guard `last_status is not False` is
satisfied by the Unknown status as well. -/
theorem C5_unknown_to_down :
    ∀ (s : MonitorSettings), 1 ≤ s.failure_threshold →
      (∀ k, k < s.failure_threshold →
        (runState s initialize_host_status (failTrace k)).lastStatus = none ∧
        (runState s initialize_host_status (failTrace k)).consecutiveFailures = k ∧
        runEvents s initialize_host_status (failTrace k) = []) ∧
      ((runState s initialize_host_status
          (failTrace s.failure_threshold)).lastStatus = some false ∧
       runEvents s initialize_host_status (failTrace s.failure_threshold) =
         [Event.down (s.failure_threshold - 1)]) := by
  intro s hft
  constructor
  · intro k hk
    obtain ⟨h1, h2⟩ := run_failTrace s k hk
    rw [h1, h2]
    exact ⟨rfl, rfl, rfl⟩
  · obtain ⟨m, hm⟩ : ∃ m, s.failure_threshold = m + 1 :=
      ⟨s.failure_threshold - 1, by omega⟩
    obtain ⟨h1, h2⟩ := run_failTrace s m (by omega)
    rw [hm, failTrace_succ, runState_append, runEvents_append, h1, h2]
    have hfire : s.failure_threshold ≤ m + 1 := by omega
    constructor
    · simp [runState, stepState, uhs_false, hfire, update_failure_status]
    · simp [runEvents, stepEvent, uhs_false, hfire]

/-- Witness for C5: with failure threshold 3, two failures accumulate with
no event from Unknown, and the third failure records the Down event
directly from Unknown. -/
theorem C5_witness :
    (1 ≤ (3 : Nat)) ∧ (2 < (3 : Nat)) ∧
    ((runState ⟨1, 3, 2, 500⟩ initialize_host_status (failTrace 2)).lastStatus = none ∧
     (runState ⟨1, 3, 2, 500⟩ initialize_host_status
         (failTrace 2)).consecutiveFailures = 2 ∧
     runEvents ⟨1, 3, 2, 500⟩ initialize_host_status (failTrace 2) = []) ∧
    ((runState ⟨1, 3, 2, 500⟩ initialize_host_status
        (failTrace 3)).lastStatus = some false ∧
     runEvents ⟨1, 3, 2, 500⟩ initialize_host_status (failTrace 3) = [Event.down 2]) :=
  ⟨by decide, by decide,
   (C5_unknown_to_down ⟨1, 3, 2, 500⟩ (by decide)).1 2 (by decide),
   (C5_unknown_to_down ⟨1, 3, 2, 500⟩ (by decide)).2⟩

lemma chain_runSweeps (interval : Nat) :
    ∀ (durs : List Nat) (st : LoopState),
      List.Chain' (fun a b : Nat × Nat =>
        b.1 = max a.2 (a.1 + interval) ∧ a.1 + interval ≤ b.1)
        (runSweeps interval st durs) := by
  intro durs
  induction durs with
  | nil => intro st; simp [runSweeps]
  | cons d ds ih =>
    intro st
    cases ds with
    | nil => simp [runSweeps]
    | cons e es =>
      have htail := ih (sweepStep interval st d)
      simp only [runSweeps] at htail ⊢
      refine List.chain'_cons.2 ⟨⟨rfl, Nat.le_max_right _ _⟩, ?_⟩
      exact htail

lemma runSweeps_le (interval : Nat) :
    ∀ (durs : List Nat) (st : LoopState) (p : Nat × Nat),
      p ∈ runSweeps interval st durs → p.1 ≤ p.2 := by
  intro durs
  induction durs with
  | nil =>
    intro st p h
    simp [runSweeps] at h
  | cons d ds ih =>
    intro st p h
    simp only [runSweeps] at h
    rcases List.mem_cons.1 h with h | h
    · rw [h]
      exact Nat.le_add_right _ _
    · exact ih _ p h

/-- Claim C6 counterexample: with interval 100 deciseconds, start clock 0
and two sweeps lasting 30 deciseconds each, the loop triggers the first
sweep at clock 100 (completing at 130) and the second at clock 200 -
strictly earlier than 130 + 100, the completion time of the first sweep
plus the interval.  So the next sweep is not triggered only once the
interval has elapsed since the previous sweep finished. -/
theorem C6_counterexample :
    monitorSweeps 100 0 [30, 30] = [(100, 130), (200, 230)] ∧ 200 < 130 + 100 := by
  decide

/-- Claim C6 as amended: after each sweep, the monitor loop re-arms its
cadence timer using the timestamp captured at the top of the iteration
that launched the sweep - the sweep's trigger time, not its completion
time - so each subsequent sweep is triggered at the later of the previous
sweep's completion time and the previous sweep's trigger time plus the
configured interval; in particular at least the interval elapses between
consecutive sweep starts. -/
theorem C6_rearm_from_sweep_start :
    ∀ (interval start : Nat) (durs : List Nat),
      List.Chain' (fun a b : Nat × Nat =>
        b.1 = max a.2 (a.1 + interval) ∧ a.1 + interval ≤ b.1)
        (monitorSweeps interval start durs) ∧
      ∀ p ∈ monitorSweeps interval start durs, p.1 ≤ p.2 := by
  intro interval start durs
  exact ⟨chain_runSweeps interval durs ⟨start, start⟩,
         fun p hp => runSweeps_le interval durs ⟨start, start⟩ p hp⟩

/-- Stripped, non-empty, non-header lines of the input: exactly the lines
the loader treats as host entries. -/
def hostLines : List String → List String
  | [] => []
  | raw :: rest =>
    if (pyStrip raw).data = [] then hostLines rest
    else if isHeader (pyStrip raw) then hostLines rest
    else pyStrip raw :: hostLines rest

lemma seen_foldl :
    ∀ (lines : List String) (st : ReadState), st.seen.Nodup →
      ((lines.foldl processLine st).seen.Nodup ∧
       ∀ h, h ∈ (lines.foldl processLine st).seen ↔
         (h ∈ st.seen ∨ h ∈ hostLines lines)) := by
  intro lines
  induction lines with
  | nil =>
    intro st hnd
    exact ⟨hnd, fun h => by simp [hostLines]⟩
  | cons raw rest ih =>
    intro st hnd
    rw [List.foldl_cons]
    by_cases hemp : (pyStrip raw).data = []
    · have hpl : processLine st raw = st := by
        simp [processLine, hemp]
      have hhl : hostLines (raw :: rest) = hostLines rest := by
        simp only [hostLines, if_pos hemp]
      rw [hpl, hhl]
      exact ih st hnd
    · by_cases hhead : isHeader (pyStrip raw) = true
      · have hpl : (processLine st raw).seen = st.seen := by
          simp [processLine, hemp, hhead]
        have hhl : hostLines (raw :: rest) = hostLines rest := by
          simp only [hostLines, if_neg hemp, if_pos hhead]
        obtain ⟨ihnd, ihmem⟩ := ih (processLine st raw) (by rw [hpl]; exact hnd)
        refine ⟨ihnd, fun h => ?_⟩
        rw [ihmem h, hpl, hhl]
      · have hpl : (processLine st raw).seen =
            if pyStrip raw ∈ st.seen then st.seen else pyStrip raw :: st.seen := by
          simp [processLine, hemp, hhead]
        have hhl : hostLines (raw :: rest) = pyStrip raw :: hostLines rest := by
          simp only [hostLines, if_neg hemp, if_neg hhead]
        by_cases hmem : pyStrip raw ∈ st.seen
        · rw [if_pos hmem] at hpl
          obtain ⟨ihnd, ihmem⟩ := ih (processLine st raw) (by rw [hpl]; exact hnd)
          refine ⟨ihnd, fun h => ?_⟩
          rw [ihmem h, hpl, hhl]
          simp only [List.mem_cons]
          constructor
          · rintro (hh | hh)
            · exact Or.inl hh
            · exact Or.inr (Or.inr hh)
          · rintro (hh | rfl | hh)
            · exact Or.inl hh
            · exact Or.inl hmem
            · exact Or.inr hh
        · rw [if_neg hmem] at hpl
          obtain ⟨ihnd, ihmem⟩ := ih (processLine st raw)
            (by rw [hpl]; exact List.nodup_cons.2 ⟨hmem, hnd⟩)
          refine ⟨ihnd, fun h => ?_⟩
          rw [ihmem h, hpl, hhl]
          simp only [List.mem_cons]
          constructor
          · rintro ((rfl | hh) | hh)
            · exact Or.inr (Or.inl rfl)
            · exact Or.inl hh
            · exact Or.inr (Or.inr hh)
          · rintro (hh | rfl | hh)
            · exact Or.inl (Or.inr hh)
            · exact Or.inl (Or.inl rfl)
            · exact Or.inr hh

/-- Claim C7 counterexample: in the file with lines `[A]`, `h`, `[B]`,
`h`, the identifier `h` first occurs under group `A`, yet its second
occurrence is also appended to group `B`'s host list - the first
occurrence's group does not win and the later occurrence is not dropped
from other groups. -/
theorem C7_counterexample :
    (read_groups ["[A]", "h", "[B]", "h"]).groups.lookup "A" = some ["h"] ∧
    (read_groups ["[A]", "h", "[B]", "h"]).groups.lookup "B" = some ["h"] := by
  decide

/-- Claim C7 as amended: global duplicate detection governs only host-state
initialization: across all groups, each distinct host line is entered into
`seen_ips` (and its monitoring state initialized) exactly once, at its
first occurrence; but every occurrence of a host line, duplicate or not,
is appended to the host list of the group that is current at that line, so
a repeated identifier appears in the host list of every group under which
it is listed (as in the concrete file `[A]`, `h`, `[B]`, `h`). -/
theorem C7_dedup_gates_initialization_only :
    (∀ (lines : List String),
      (read_groups lines).seen.Nodup ∧
      ∀ h, h ∈ (read_groups lines).seen ↔ h ∈ hostLines lines) ∧
    ((read_groups ["[A]", "h", "[B]", "h"]).seen = ["h"] ∧
     (read_groups ["[A]", "h", "[B]", "h"]).groups =
       [(defaultGroupName, []), ("A", ["h"]), ("B", ["h"])]) := by
  constructor
  · intro lines
    obtain ⟨h1, h2⟩ := seen_foldl lines initReadState List.nodup_nil
    refine ⟨h1, fun h => ?_⟩
    have hseen : (read_groups lines).seen =
        (lines.foldl processLine initReadState).seen := rfl
    rw [hseen, h2 h]
    simp [initReadState]
  · exact ⟨by decide, by decide⟩

lemma lookup_setGroup_self (gs : List (String × List String)) (g : String)
    (v : List String) : (setGroup gs g v).lookup g = some v := by
  induction gs with
  | nil => simp [setGroup, List.lookup]
  | cons p rest ih =>
    obtain ⟨k, w⟩ := p
    by_cases hk : k = g
    · subst hk
      simp [setGroup, List.lookup]
    · have hb : (g == k) = false := beq_eq_false_iff_ne.2 (Ne.symm hk)
      simp [setGroup, hk, List.lookup, hb, ih]

/-- Claim C10: a bracketed group header line resets that group's host list
to the empty list whenever it is processed - in particular at each
repeated occurrence - so in the concrete file `[A]`, `h1`, `x7`, `[A]`,
`h2` the hosts `h1` and `x7` listed under the earlier occurrence of `[A]`
are silently dropped and only the host after the last occurrence remains
in the group's final list. -/
theorem C10_repeated_header_resets :
    (∀ (st : ReadState) (line : String), isHeader (pyStrip line) = true →
      (processLine st line).groups.lookup (headerName (pyStrip line)) = some []) ∧
    (read_groups ["[A]", "h1", "x7", "[A]", "h2"]).groups.lookup "A" = some ["h2"] := by
  constructor
  · intro st line hhead
    have hemp : ¬ (pyStrip line).data = [] := by
      intro h
      unfold isHeader at hhead
      rw [h] at hhead
      simp at hhead
    simp [processLine, hemp, hhead, lookup_setGroup_self]
  · decide

/-- Witness for C10: processing the header line `[A]` in the initial
loader state resets (here: creates) group `A` with an empty host list. -/
theorem C10_witness :
    isHeader (pyStrip "[A]") = true ∧
    (processLine initReadState "[A]").groups.lookup (headerName (pyStrip "[A]")) =
      some [] :=
  ⟨by decide, C10_repeated_header_resets.1 initReadState "[A]" (by decide)⟩

lemma lexLe_refl (l : List Int) : lexLe l l = true := by
  induction l with
  | nil => rfl
  | cons a xs ih => simp [lexLe, ih]

lemma lexLe_total (l1 l2 : List Int) : lexLe l1 l2 = true ∨ lexLe l2 l1 = true := by
  induction l1 generalizing l2 with
  | nil => exact Or.inl rfl
  | cons a xs ih =>
    cases l2 with
    | nil => exact Or.inr rfl
    | cons b ys =>
      by_cases hab : a < b
      · exact Or.inl (by simp [lexLe, hab])
      · by_cases hba : b < a
        · exact Or.inr (by simp [lexLe, hba])
        · rcases ih ys with h | h
          · exact Or.inl (by simp [lexLe, hab, hba, h])
          · exact Or.inr (by simp [lexLe, hab, hba, h])

lemma lexLe_trans : ∀ (l1 l2 l3 : List Int), lexLe l1 l2 = true →
    lexLe l2 l3 = true → lexLe l1 l3 = true := by
  intro l1
  induction l1 with
  | nil => intro l2 l3 h12 h23; rfl
  | cons a xs ih =>
    intro l2 l3 h12 h23
    cases l2 with
    | nil => exact absurd h12 (by simp [lexLe])
    | cons b ys =>
      cases l3 with
      | nil => exact absurd h23 (by simp [lexLe])
      | cons c zs =>
        rcases lt_trichotomy a b with hab | rfl | hab
        · rcases lt_trichotomy b c with hbc | rfl | hbc
          · simp [lexLe, lt_trans hab hbc]
          · simp [lexLe, hab]
          · exact absurd h23 (by simp [lexLe, hbc, not_lt_of_gt hbc])
        · rcases lt_trichotomy a c with hac | rfl | hac
          · simp [lexLe, hac]
          · have h12' : lexLe xs ys = true := by
              simpa [lexLe, lt_irrefl] using h12
            have h23' : lexLe ys zs = true := by
              simpa [lexLe, lt_irrefl] using h23
            simpa [lexLe, lt_irrefl] using ih ys zs h12' h23'
          · exact absurd h23 (by simp [lexLe, hac, not_lt_of_gt hac])
        · exact absurd h12 (by simp [lexLe, hab, not_lt_of_gt hab])

lemma insort_perm (x : String) (l : List String) : (insortIp x l).Perm (x :: l) := by
  induction l with
  | nil => exact List.Perm.refl _
  | cons y ys ih =>
    by_cases hc : lexLe (ip_to_tuple y) (ip_to_tuple x) = true
    · simp only [insortIp, if_pos hc]
      exact (ih.cons y).trans (List.Perm.swap x y ys)
    · simp only [insortIp, if_neg hc]
      exact List.Perm.refl _

lemma insort_mem (x : String) (l : List String) (a : String) :
    a ∈ insortIp x l ↔ a = x ∨ a ∈ l := by
  rw [(insort_perm x l).mem_iff]
  exact List.mem_cons

lemma insort_sorted (x : String) (l : List String)
    (hs : l.Pairwise (fun a b => lexLe (ip_to_tuple a) (ip_to_tuple b) = true)) :
    (insortIp x l).Pairwise
      (fun a b => lexLe (ip_to_tuple a) (ip_to_tuple b) = true) := by
  induction l with
  | nil => simp [insortIp]
  | cons y ys ih =>
    obtain ⟨hy, hys⟩ := List.pairwise_cons.1 hs
    by_cases hc : lexLe (ip_to_tuple y) (ip_to_tuple x) = true
    · simp only [insortIp, if_pos hc]
      refine List.pairwise_cons.2 ⟨?_, ih hys⟩
      intro b hb
      rcases (insort_mem x ys b).1 hb with rfl | hb
      · exact hc
      · exact hy b hb
    · simp only [insortIp, if_neg hc]
      have hxy : lexLe (ip_to_tuple x) (ip_to_tuple y) = true := by
        rcases lexLe_total (ip_to_tuple x) (ip_to_tuple y) with h | h
        · exact h
        · exact absurd h hc
      refine List.pairwise_cons.2 ⟨?_, hs⟩
      intro b hb
      rcases List.mem_cons.1 hb with rfl | hb
      · exact hxy
      · exact lexLe_trans _ _ _ hxy (hy b hb)

lemma insort_filter (x : String) (k : List Int) (l : List String)
    (hs : l.Pairwise (fun a b => lexLe (ip_to_tuple a) (ip_to_tuple b) = true)) :
    (insortIp x l).filter (fun a => ip_to_tuple a == k) =
      l.filter (fun a => ip_to_tuple a == k) ++
        (if ip_to_tuple x == k then [x] else []) := by
  induction l with
  | nil =>
    simp only [insortIp, List.filter_nil, List.nil_append]
    by_cases hpx : (ip_to_tuple x == k) = true
    · simp [List.filter_cons, hpx]
    · simp [List.filter_cons, hpx]
  | cons y ys ih =>
    obtain ⟨hy, hys⟩ := List.pairwise_cons.1 hs
    by_cases hc : lexLe (ip_to_tuple y) (ip_to_tuple x) = true
    · simp only [insortIp, if_pos hc, List.filter_cons]
      rw [ih hys]
      by_cases hpy : (ip_to_tuple y == k) = true
      · simp [hpy]
      · simp [hpy]
    · simp only [insortIp, if_neg hc]
      by_cases hpx : (ip_to_tuple x == k) = true
      · have hkx : ip_to_tuple x = k := by simpa using hpx
        have hfil : (y :: ys).filter (fun a => ip_to_tuple a == k) = [] := by
          rw [List.filter_eq_nil_iff]
          intro b hb hbk
          have hbk2 : ip_to_tuple b = k := by simpa using hbk
          rcases List.mem_cons.1 hb with rfl | hb
          · exact hc (by rw [hbk2, hkx]; exact lexLe_refl k)
          · have h1 := hy b hb
            rw [hbk2] at h1
            exact hc (by rw [hkx]; exact h1)
        rw [List.filter_cons, if_pos hpx, if_pos hpx, hfil]
        rfl
      · rw [List.filter_cons, if_neg hpx, if_neg hpx, List.append_nil]

lemma sortAux_sorted (l : List String) :
    ∀ acc, acc.Pairwise (fun a b => lexLe (ip_to_tuple a) (ip_to_tuple b) = true) →
      (l.foldl (fun acc x => insortIp x acc) acc).Pairwise
        (fun a b => lexLe (ip_to_tuple a) (ip_to_tuple b) = true) := by
  induction l with
  | nil => exact fun acc h => h
  | cons x xs ih => exact fun acc h => ih _ (insort_sorted x acc h)

lemma sortAux_perm (l : List String) :
    ∀ acc, (l.foldl (fun acc x => insortIp x acc) acc).Perm (acc ++ l) := by
  induction l with
  | nil => intro acc; simp
  | cons x xs ih =>
    intro acc
    refine (ih (insortIp x acc)).trans ?_
    refine (((insort_perm x acc).append_right xs).trans ?_)
    exact List.perm_middle.symm

lemma sortAux_filter (l : List String) (k : List Int) :
    ∀ acc, acc.Pairwise (fun a b => lexLe (ip_to_tuple a) (ip_to_tuple b) = true) →
      (l.foldl (fun acc x => insortIp x acc) acc).filter
          (fun a => ip_to_tuple a == k) =
        acc.filter (fun a => ip_to_tuple a == k) ++
          l.filter (fun a => ip_to_tuple a == k) := by
  induction l with
  | nil => intro acc _; simp
  | cons x xs ih =>
    intro acc h
    rw [List.foldl_cons, ih _ (insort_sorted x acc h), insort_filter x k acc h,
        List.filter_cons, List.append_assoc]
    by_cases hpx : (ip_to_tuple x == k) = true
    · rw [if_pos hpx, if_pos hpx]
      rfl
    · rw [if_neg hpx, if_neg hpx]
      rfl

/-- Claim C8 counterexample: the address `1000.0.0.0` parses (every
dot-separated field is an integer), the address `xyz` does not, yet
`sort_ip_addresses` places the non-numeric `xyz` before the parseable
`1000.0.0.0`, because the sentinel key (999, 999, 999, 999) of unparseable
addresses is smaller than the key (1000, 0, 0, 0).  So a non-numeric
address does not sort after all parseable addresses. -/
theorem C8_counterexample :
    sort_ip_addresses ["1000.0.0.0", "xyz"] = ["xyz", "1000.0.0.0"] ∧
    ((splitDot ("1000.0.0.0").data).mapM pyInt).isSome = true ∧
    ((splitDot ("xyz").data).mapM pyInt).isSome = false := by
  decide

/-- Claim C8 as amended: `sort_ip_addresses` returns a permutation of its
input that is sorted by the key `ip_to_tuple` - the tuple of integer
values of the dot-separated fields when every field parses as a Python
integer, and the sentinel (999, 999, 999, 999) otherwise - under
lexicographic tuple comparison, and it is stable: for every key value the
subsequence of entries with that key keeps its input order (in particular
unparseable entries, which all share the sentinel key, stay in input
order).  An unparseable entry therefore sorts after exactly those entries
whose key is at most the sentinel, not after every parseable address. -/
theorem C8_sorted_stably_by_sentinel_key :
    ∀ (ips : List String),
      (sort_ip_addresses ips).Perm ips ∧
      (sort_ip_addresses ips).Pairwise
        (fun a b => lexLe (ip_to_tuple a) (ip_to_tuple b) = true) ∧
      (∀ k : List Int,
        (sort_ip_addresses ips).filter (fun a => ip_to_tuple a == k) =
          ips.filter (fun a => ip_to_tuple a == k)) ∧
      (∀ ip : String, (splitDot ip.data).mapM pyInt = none →
        ip_to_tuple ip = [999, 999, 999, 999]) := by
  intro ips
  refine ⟨?_, ?_, ?_, ?_⟩
  · have h := sortAux_perm ips []
    simpa [sort_ip_addresses] using h
  · exact sortAux_sorted ips [] List.Pairwise.nil
  · intro k
    have h := sortAux_filter ips k [] List.Pairwise.nil
    simpa [sort_ip_addresses] using h
  · intro ip h
    unfold ip_to_tuple
    rw [h]

/-- Witness for C8: the non-numeric address `xyz` fails field parsing and
receives the sentinel key. -/
theorem C8_witness :
    (splitDot ("xyz").data).mapM pyInt = none ∧
    ip_to_tuple "xyz" = [999, 999, 999, 999] :=
  ⟨by decide,
   (C8_sorted_stably_by_sentinel_key ["xyz"]).2.2.2 "xyz" (by decide)⟩

lemma lookup_setStat_self (stats : List (String × StatEntry)) (h : String)
    (e : StatEntry) : (setStat stats h e).lookup h = some e := by
  induction stats with
  | nil => simp [setStat, List.lookup]
  | cons p rest ih =>
    obtain ⟨k, w⟩ := p
    by_cases hk : k = h
    · subst hk
      simp [setStat, List.lookup]
    · have hb : (h == k) = false := beq_eq_false_iff_ne.2 (Ne.symm hk)
      simp [setStat, hk, List.lookup, hb, ih]

lemma lookup_setStat_ne (stats : List (String × StatEntry)) (h h' : String)
    (e : StatEntry) (hne : h' ≠ h) :
    (setStat stats h e).lookup h' = stats.lookup h' := by
  have hb : (h' == h) = false := beq_eq_false_iff_ne.2 hne
  induction stats with
  | nil => simp [setStat, List.lookup, hb]
  | cons p rest ih =>
    obtain ⟨k, w⟩ := p
    by_cases hk : k = h
    · subst hk
      simp [setStat, List.lookup, hb]
    · by_cases hk2 : h' = k
      · have hbk : (h' == k) = true := beq_iff_eq.2 hk2
        simp [setStat, hk, List.lookup, hbk]
      · have hbk : (h' == k) = false := beq_eq_false_iff_ne.2 hk2
        simp [setStat, hk, List.lookup, hbk, ih]

lemma getStat_setStat_self (stats : List (String × StatEntry)) (h : String)
    (e : StatEntry) : getStat (setStat stats h e) h = e := by
  simp [getStat, lookup_setStat_self]

lemma getStat_setStat_ne (stats : List (String × StatEntry)) (h h' : String)
    (e : StatEntry) (hne : h' ≠ h) :
    getStat (setStat stats h e) h' = getStat stats h' := by
  simp [getStat, lookup_setStat_ne stats h h' e hne]

lemma stats_run (host : String) :
    ∀ (rs : List (String × Bool)) (stats : List (String × StatEntry)),
      (getStat (rs.foldl process_result stats) host).total =
          (getStat stats host).total + rs.countP (fun r => r.1 == host) ∧
      (getStat (rs.foldl process_result stats) host).success =
          (getStat stats host).success + rs.countP (fun r => r.1 == host && r.2) := by
  intro rs
  induction rs with
  | nil => intro stats; simp
  | cons r rest ih =>
    intro stats
    rw [List.foldl_cons]
    obtain ⟨ih1, ih2⟩ := ih (process_result stats r)
    rw [ih1, ih2]
    obtain ⟨rhost, rsucc⟩ := r
    by_cases hk : rhost = host
    · subst hk
      have e1 : getStat (process_result stats (rhost, rsucc)) rhost =
          { success := (getStat stats rhost).success + (if rsucc then 1 else 0)
            total := (getStat stats rhost).total + 1
            last_status := some rsucc } :=
        getStat_setStat_self stats rhost _
      rw [e1]
      constructor
      · simp [List.countP_cons]
        omega
      · cases rsucc with
        | true => simp [List.countP_cons]; omega
        | false => simp [List.countP_cons]
    · have e1 : getStat (process_result stats (rhost, rsucc)) host =
          getStat stats host :=
        getStat_setStat_ne stats rhost host _ (Ne.symm hk)
      rw [e1]
      have hb : (rhost == host) = false := beq_eq_false_iff_ne.2 hk
      constructor
      · simp [List.countP_cons, hb]
      · simp [List.countP_cons, hb]

/-- Claim C9: for every host, the aggregator's running total counts that
host's processed results and its success count counts that host's
successful results; the success rate is the success count divided by the
total times 100 when the total is positive, and 0 when the total is 0; in
particular a host with 7 successes out of 10 probes has a success rate of
exactly 70, and with 0 probes a rate of 0. -/
theorem C9_success_rate :
    (∀ (results : List (String × Bool)) (host : String),
      (getStat (results.foldl process_result []) host).total =
          results.countP (fun r => r.1 == host) ∧
      (getStat (results.foldl process_result []) host).success =
          results.countP (fun r => r.1 == host && r.2) ∧
      ((getStat (results.foldl process_result []) host).total = 0 →
        (get_host_stats (results.foldl process_result []) host).1 = 0) ∧
      (0 < (getStat (results.foldl process_result []) host).total →
        (get_host_stats (results.foldl process_result []) host).1 =
          ((getStat (results.foldl process_result []) host).success : ℚ) /
            ((getStat (results.foldl process_result []) host).total : ℚ) * 100)) ∧
    (get_host_stats
        ([("10.0.0.1", true), ("10.0.0.1", true), ("10.0.0.1", false),
          ("10.0.0.1", true), ("10.0.0.1", true), ("10.0.0.1", false),
          ("10.0.0.1", true), ("10.0.0.1", true), ("10.0.0.1", false),
          ("10.0.0.1", true)].foldl process_result []) "10.0.0.1").1 = 70 ∧
    (get_host_stats [] "10.0.0.1").1 = 0 := by
  refine ⟨?_, ?_, ?_⟩
  · intro results host
    obtain ⟨h1, h2⟩ := stats_run host results []
    refine ⟨by simpa [getStat, defaultStat] using h1,
            by simpa [getStat, defaultStat] using h2, ?_, ?_⟩
    · intro hz
      simp [get_host_stats, hz]
    · intro hp
      have hz : ¬ (getStat (results.foldl process_result []) host).total = 0 := by
        omega
      simp [get_host_stats, hz]
  · have hstat : getStat
        ([("10.0.0.1", true), ("10.0.0.1", true), ("10.0.0.1", false),
          ("10.0.0.1", true), ("10.0.0.1", true), ("10.0.0.1", false),
          ("10.0.0.1", true), ("10.0.0.1", true), ("10.0.0.1", false),
          ("10.0.0.1", true)].foldl process_result []) "10.0.0.1" =
        ⟨7, 10, some true⟩ := by decide
    rw [get_host_stats, hstat]
    norm_num
  · simp [get_host_stats, getStat, List.lookup, defaultStat]

/-- Witness for C9: a single successful probe for a host gives a positive
total, and the rate formula of the theorem applies at that input. -/
theorem C9_witness :
    0 < (getStat ([("10.0.0.1", true)].foldl process_result []) "10.0.0.1").total ∧
    (get_host_stats ([("10.0.0.1", true)].foldl process_result []) "10.0.0.1").1 =
      ((getStat ([("10.0.0.1", true)].foldl process_result [])
          "10.0.0.1").success : ℚ) /
        ((getStat ([("10.0.0.1", true)].foldl process_result [])
            "10.0.0.1").total : ℚ) * 100 :=
  ⟨by decide,
   (C9_success_rate.1 [("10.0.0.1", true)] "10.0.0.1").2.2.2 (by decide)⟩

/-- Witness for C6: the first sweep of the concrete schedule is a member
of the schedule and its trigger time is at most its completion time. -/
theorem C6_witness :
    (100, 130) ∈ monitorSweeps 100 0 [30, 30] ∧ ((100, 130) : Nat × Nat).1 ≤ (100, 130).2 :=
  ⟨by decide,
   (C6_rearm_from_sweep_start 100 0 [30, 30]).2 (100, 130) (by decide)⟩
